import Mathlib

/-!
Verification of the chanassert matching engine against its specification.

The development shallowly embeds the Go sources of hbomb79/go-chanassert:
matchers are boolean predicates, the stateful combiner / layer / expecter
code becomes explicit state passing, Go machine integers become Int or Nat
(counts only ever grow by one per received message, so no wraparound is
reachable in any statement proved here), and the partial operation
(dereferencing a possibly-nil startTime pointer) returns Option.

Trace text produced inside combiners and layers is carried opaquely by the
consumer model: the consumer never reads it and no statement below depends
on it.  The trace renderer itself (trace.go) is embedded faithfully.
-/

set_option autoImplicit false

namespace Chanassert

/-- Go math.MaxInt on a 64-bit platform, as used by the combiner constructors. -/
def maxInt : Int := 9223372036854775807

/-- The combiner mode enumeration from combiner.go. -/
inductive mode where
  | modeEach
  | modeAny
  | modeSum
deriving DecidableEq, Repr

/-- State of an nCombiner from combiner.go.  The Go field `counts` is a
`map[int]int` keyed by matcher index; it is modelled as a list of the same
length as `matchers` in which `none` stands for an absent key.  A Matcher is
its `DoesMatch` predicate. -/
structure nCombiner (T : Type) where
  matchers : List (T → Bool)
  min : Int
  max : Int
  counts : List (Option Nat)
  mode : mode
  satisfied : Bool := false
  saturated : Bool := false

/-- Read of the Go map `counts[i]`: a missing key reads as zero. -/
def countAt (counts : List (Option Nat)) (i : Nat) : Nat :=
  (counts.getD i none).getD 0

/-- The recorded values of the Go map `counts` (one per present key). -/
def countsValues (counts : List (Option Nat)) : List Nat :=
  counts.filterMap id

/-- Go `len(nCombiner.counts)`: the number of keys present in the map. -/
def countsLen (counts : List (Option Nat)) : Nat :=
  (countsValues counts).length

/-- The Go map write `counts[i]++` (an absent key reads as zero first). -/
def incrAt (counts : List (Option Nat)) (i : Nat) : List (Option Nat) :=
  counts.set i (some (countAt counts i + 1))

/-- nCombiner.sumMatches from combiner.go. -/
def nCombiner.sumMatches {T : Type} (c : nCombiner T) : Int :=
  ((countsValues c.counts).sum : Int)

/-- nCombiner.updateSaturation from combiner.go, as a state transformer. -/
def nCombiner.updateSaturation {T : Type} (c : nCombiner T) : nCombiner T :=
  { c with saturated :=
      match c.mode with
      | .modeEach =>
          countsLen c.counts == c.matchers.length
            && (countsValues c.counts).all fun n => decide (c.max ≤ (n : Int))
      | .modeAny =>
          (countsValues c.counts).any fun n => decide (c.max ≤ (n : Int))
      | .modeSum => decide (c.max ≤ c.sumMatches) }

/-- nCombiner.updateSatisifed from combiner.go (source spelling kept), as a
state transformer. -/
def nCombiner.updateSatisifed {T : Type} (c : nCombiner T) : nCombiner T :=
  { c with satisfied :=
      match c.mode with
      | .modeEach =>
          countsLen c.counts == c.matchers.length
            && (countsValues c.counts).all fun n =>
                 decide (c.min ≤ (n : Int)) && decide ((n : Int) ≤ c.max)
      | .modeAny =>
          (countsValues c.counts).any fun n =>
            decide (c.min ≤ (n : Int)) && decide ((n : Int) ≤ c.max)
      | .modeSum => decide (c.min ≤ c.sumMatches) && decide (c.sumMatches ≤ c.max) }

/-- The matcher loop inside nCombiner.DoesMatch: scan the matchers from
index `i`, skipping (in EACH mode) matchers already at their maximum, and
return the index of the first matcher that accepts the message. -/
def matchLoop {T : Type} (c : nCombiner T) (message : T) : Nat → List (T → Bool) → Option Nat
  | _, [] => none
  | i, m :: rest =>
      if m message then
        if c.mode = mode.modeEach ∧ c.max ≤ (countAt c.counts i : Int) then
          matchLoop c message (i + 1) rest
        else
          some i
      else
        matchLoop c message (i + 1) rest

/-- nCombiner.DoesMatch from combiner.go.  When saturated it returns false
before the deferred flag updates are even registered; otherwise the deferred
updateSaturation and updateSatisifed run after the matcher loop, whether or
not a matcher accepted. -/
def nCombiner.DoesMatch {T : Type} (c : nCombiner T) (message : T) : Bool × nCombiner T :=
  if c.saturated then
    (false, c)
  else
    match matchLoop c message 0 c.matchers with
    | some i =>
        (true, ({ c with counts := incrAt c.counts i }).updateSaturation.updateSatisifed)
    | none =>
        (false, c.updateSaturation.updateSatisifed)

/-- nCombiner.IsSatisfied from combiner.go. -/
def nCombiner.IsSatisfied {T : Type} (c : nCombiner T) : Bool :=
  c.satisfied

/-- AtLeastNOfEach from combiner.go. -/
def AtLeastNOfEach {T : Type} (n : Int) (matchers : List (T → Bool)) : nCombiner T :=
  { mode := .modeEach, matchers := matchers, min := n, max := maxInt
    counts := List.replicate matchers.length none }

/-- BetweenNOfEach from combiner.go. -/
def BetweenNOfEach {T : Type} (min max : Int) (matchers : List (T → Bool)) : nCombiner T :=
  { mode := .modeEach, matchers := matchers, min := min, max := max
    counts := List.replicate matchers.length none }

/-- ExactlyNOfEach from combiner.go. -/
def ExactlyNOfEach {T : Type} (n : Int) (matchers : List (T → Bool)) : nCombiner T :=
  { mode := .modeEach, matchers := matchers, min := n, max := n
    counts := List.replicate matchers.length none }

/-- AtLeastNOfAny from combiner.go. -/
def AtLeastNOfAny {T : Type} (n : Int) (matchers : List (T → Bool)) : nCombiner T :=
  { mode := .modeAny, matchers := matchers, min := n, max := maxInt
    counts := List.replicate matchers.length none }

/-- BetweenNOfAny from combiner.go. -/
def BetweenNOfAny {T : Type} (min max : Int) (matchers : List (T → Bool)) : nCombiner T :=
  { mode := .modeAny, matchers := matchers, min := min, max := max
    counts := List.replicate matchers.length none }

/-- ExactlyNOfAny from combiner.go. -/
def ExactlyNOfAny {T : Type} (n : Int) (matchers : List (T → Bool)) : nCombiner T :=
  { mode := .modeAny, matchers := matchers, min := n, max := n
    counts := List.replicate matchers.length none }

/-- AtLeastNOf from combiner.go. -/
def AtLeastNOf {T : Type} (n : Int) (matchers : List (T → Bool)) : nCombiner T :=
  { mode := .modeSum, matchers := matchers, min := n, max := maxInt
    counts := List.replicate matchers.length none }

/-- BetweenNOf from combiner.go. -/
def BetweenNOf {T : Type} (min max : Int) (matchers : List (T → Bool)) : nCombiner T :=
  { mode := .modeSum, matchers := matchers, min := min, max := max
    counts := List.replicate matchers.length none }

/-- ExactlyNOf from combiner.go. -/
def ExactlyNOf {T : Type} (n : Int) (matchers : List (T → Bool)) : nCombiner T :=
  { mode := .modeSum, matchers := matchers, min := n, max := n
    counts := List.replicate matchers.length none }

/-- AllOf from combiner.go. -/
def AllOf {T : Type} (matchers : List (T → Bool)) : nCombiner T :=
  ExactlyNOfEach 1 matchers

/-- OneOf from combiner.go. -/
def OneOf {T : Type} (matchers : List (T → Bool)) : nCombiner T :=
  ExactlyNOf 1 matchers

/-- Feeding a sequence of messages to a combiner, one DoesMatch call each. -/
def feedMessages {T : Type} (c : nCombiner T) (messages : List T) : nCombiner T :=
  messages.foldl (fun c m => (c.DoesMatch m).2) c

/-- The trace verbosity levels from trace.go. -/
inductive messageMode where
  | info
  | debug
deriving DecidableEq, Repr

/-- TraceMessage from trace.go: a message, nested children, and a mode. -/
inductive TraceMessage where
  | node (Message : String) (Nested : List TraceMessage) (Mode : messageMode)
deriving Repr

/-- newInfoTrace from trace.go (variadic nested arguments become a list). -/
def newInfoTrace (message : String) (nested : List TraceMessage) : TraceMessage :=
  .node message nested .info

/-- newDebugTrace from trace.go. -/
def newDebugTrace (message : String) (nested : List TraceMessage) : TraceMessage :=
  .node message nested .debug

/-- The rotating level markers of trace.go (source name levelPrefixes). -/
def levelMarkers : List Char := ['-', '*', '+', '>']

/-- Go strings.Repeat. -/
def strRepeat (s : String) : Nat → String
  | 0 => ""
  | n + 1 => s ++ strRepeat s n

/-- The single line that TraceMessage.PrintTrace writes for one node:
two spaces of indentation per nesting level plus one, the level marker, the
DEBUG tag for debug mode, the message, and a newline. -/
def renderLine (message : String) (md : messageMode) (nestLevel : Nat) : String :=
  strRepeat "  " (nestLevel + 1)
    ++ String.singleton (levelMarkers.getD (nestLevel % levelMarkers.length) '-')
    ++ (match md with
        | .info => " "
        | .debug => " [DEBUG] ")
    ++ message ++ "\n"

mutual

/-- TraceMessage.PrintTrace from trace.go, with the written bytes returned
as a string: print the line for this node, then recursively print every
nested trace one level deeper.  Info and debug nodes are both always
printed; the mode only selects the line format. -/
def TraceMessage.PrintTrace : TraceMessage → Nat → String
  | .node message nested md, nestLevel =>
      renderLine message md nestLevel ++ PrintTraceList nested (nestLevel + 1)

/-- The recursion of PrintTrace over the Nested list. -/
def PrintTraceList : List TraceMessage → Nat → String
  | [], _ => ""
  | t :: ts, nestLevel => t.PrintTrace nestLevel ++ PrintTraceList ts nestLevel

end

mutual

/-- The number of trace nodes in a trace tree. -/
def nodeCount : TraceMessage → Nat
  | .node _ nested _ => 1 + nodeCountList nested

/-- The number of trace nodes in a list of trace trees. -/
def nodeCountList : List TraceMessage → Nat
  | [] => 0
  | t :: ts => nodeCount t + nodeCountList ts

end

mutual

/-- Whether no message in a trace tree contains a newline character. -/
def noNewlines : TraceMessage → Bool
  | .node message nested _ => !(message.data.contains '\n') && noNewlinesList nested

/-- noNewlines over a list of trace trees. -/
def noNewlinesList : List TraceMessage → Bool
  | [] => true
  | t :: ts => noNewlines t && noNewlinesList ts

end

/-- The number of newline characters in a string. -/
def countLines (s : String) : Nat :=
  s.data.count '\n'

mutual

/-- Modelled from the spec (section 6, Trace rendering): info-level entries
are always shown, debug-level entries only when a verbose flag is enabled
on the Expecter.  A suppressed debug entry contributes nothing to the
rendered output. -/
def specPrintTrace (verbose : Bool) : TraceMessage → Nat → String
  | .node message nested md, nestLevel =>
      if md = messageMode.debug ∧ verbose = false then ""
      else renderLine message md nestLevel ++ specPrintTraceList verbose nested (nestLevel + 1)

/-- The recursion of specPrintTrace over the nested list. -/
def specPrintTraceList (verbose : Bool) : List TraceMessage → Nat → String
  | [], _ => ""
  | t :: ts, nestLevel => specPrintTrace verbose t nestLevel ++ specPrintTraceList verbose ts nestLevel

end

/-- The message statuses from trace.go (current, exported spelling). -/
inductive MessageStatus where
  | Accepted
  | Ignored
  | Rejected
deriving DecidableEq, Repr

/-- MessageStatus.String from trace.go. -/
def MessageStatus.str : MessageStatus → String
  | .Accepted => "ACCEPTED"
  | .Ignored => "IGNORED"
  | .Rejected => "REJECTED"

/-- MessageResult from trace.go: the message, the index of the layer it was
presented to (minus one when ignored), its status and its trace. -/
structure MessageResult (T : Type) where
  Message : T
  LayerIdx : Int
  Status : MessageStatus
  Trace : TraceMessage

/-- MessageResult.PrettyPrint from trace.go, for string messages: the
header line, the trace rendered from nest level zero, and a blank line. -/
def MessageResult.PrettyPrint (result : MessageResult String) : String :=
  "Message '" ++ result.Message ++ "' - " ++ result.Status.str ++ ":\n"
    ++ result.Trace.PrintTrace 0 ++ "\n"

/-- The layer modes from layer.go. -/
inductive LayerMode where
  | and
  | or
deriving DecidableEq, Repr

/-- The layer structure from layer.go.  Durations and instants are modelled
as natural numbers; the Go pointers timeout and startTime become options,
with none standing for nil. -/
structure layer (T : Type) where
  combiners : List (nCombiner T)
  satisfied : Bool := false
  mode : LayerMode
  layerIdx : Nat
  timeout : Option Nat := none
  startTime : Option Nat := none

/-- layer.Begin from layer.go: capture the current time as startTime the
first time a layer with a configured timeout is selected; otherwise no-op. -/
def layer.Begin {T : Type} (l : layer T) (now : Nat) : layer T :=
  if l.timeout = none ∨ l.startTime ≠ none then l
  else { l with startTime := some now }

/-- layer.timeoutElapsed from layer.go.  The Go code dereferences
layer.startTime with no nil check once layer.timeout is non-nil; that nil
dereference is modelled as none. -/
def layer.timeoutElapsed {T : Type} (l : layer T) (now : Nat) : Option Bool :=
  match l.timeout with
  | none => some false
  | some d =>
      match l.startTime with
      | none => none
      | some s => some (decide (s + d ≤ now))

/-- The combiner loop inside layer.tryMatch: try each combiner in order and
stop at the first that accepts; every combiner tried has its state updated
(its DoesMatch recomputes its flags even on rejection), later combiners are
left untouched. -/
def tryCombiners {T : Type} : List (nCombiner T) → T → Bool × List (nCombiner T)
  | [], _ => (false, [])
  | c :: rest, message =>
      let r := c.DoesMatch message
      if r.1 then (true, r.2 :: rest)
      else
        let rr := tryCombiners rest message
        (rr.1, r.2 :: rr.2)

/-- layer.updateSatisfied from layer.go, as a state transformer. -/
def layer.updateSatisfied {T : Type} (l : layer T) : layer T :=
  { l with satisfied :=
      match l.mode with
      | .and => l.combiners.all fun c => c.IsSatisfied
      | .or => l.combiners.any fun c => c.IsSatisfied }

/-- layer.tryMatch from layer.go (trace text omitted): reject outright when
the timeout has elapsed (without touching combiners or the satisfied flag),
otherwise run the combiner loop and recompute satisfied.  none models the
nil-pointer panic inside timeoutElapsed. -/
def layer.tryMatch {T : Type} (l : layer T) (now : Nat) (message : T) : Option (Bool × layer T) :=
  match l.timeoutElapsed now with
  | none => none
  | some true => some (false, l)
  | some false =>
      let r := tryCombiners l.combiners message
      some (r.1, ({ l with combiners := r.2 }).updateSatisfied)

/-- layer.IsSatisfied from layer.go. -/
def layer.IsSatisfied {T : Type} (l : layer T) : Bool :=
  l.satisfied

/-- The expecter structure from expecter.go.  The channel and the
synchronization plumbing (wait group, close channel) are not part of the
state the claims are about; the message source instead becomes an explicit
list fed to Listen. -/
structure expecter (T : Type) where
  ignoreMatchers : List (T → Bool)
  currentLayerIndex : Nat := 0
  expectLayers : List (layer T)
  results : List (MessageResult T) := []
  debug : Bool := false

/-- expecter.Debug from expecter.go. -/
def expecter.Debug {T : Type} (exp : expecter T) : expecter T :=
  { exp with debug := true }

/-- expecter.shouldIgnoreMessage from expecter.go: the first ignore matcher
accepting the message wins; the trace names its index. -/
def expecter.shouldIgnoreMessage {T : Type} (exp : expecter T) (message : T) : Bool × TraceMessage :=
  go 0 exp.ignoreMatchers
where
  go : Nat → List (T → Bool) → Bool × TraceMessage
    | _, [] => (false, newInfoTrace "" [])
    | idx, ignore :: rest =>
        if ignore message then
          (true, newInfoTrace ("Ignore matcher #" ++ toString idx ++ " ACCEPTED") [])
        else go (idx + 1) rest

/-- A placeholder for the trace a layer attaches to a result; the consumer
never reads it, and its text (built with fmt in Go) is not modelled. -/
def opaqueTrace : TraceMessage := newInfoTrace "" []

/-- One iteration of the consumer loop inside expecter.Listen, processing
one received message: Begin the active layer, divert the message to the
ignore log if an ignore matcher accepts it, otherwise present it to the
active layer, log the result with the current layer index, and advance to
the next layer on an accepted message that satisfied the layer.  Callers
guarantee currentLayerIndex < expectLayers.length; none models the
nil-pointer panic propagating out of layer.tryMatch. -/
def listenStep {T : Type} (exp : expecter T) (now : Nat) (message : T) : Option (expecter T) :=
  match exp.expectLayers.get? exp.currentLayerIndex with
  | none => none
  | some l0 =>
      let l := l0.Begin now
      let exp := { exp with expectLayers := exp.expectLayers.set exp.currentLayerIndex l }
      let ig := exp.shouldIgnoreMessage message
      if ig.1 then
        some { exp with results := exp.results
                 ++ [{ Message := message, LayerIdx := -1, Status := .Ignored, Trace := ig.2 }] }
      else
        match l.tryMatch now message with
        | none => none
        | some (ok, l1) =>
            let status := if ok then MessageStatus.Accepted else MessageStatus.Rejected
            let exp := { exp with
              expectLayers := exp.expectLayers.set exp.currentLayerIndex l1
              results := exp.results
                ++ [{ Message := message, LayerIdx := (exp.currentLayerIndex : Int)
                      Status := status, Trace := opaqueTrace }] }
            some (if ok = true ∧ l1.IsSatisfied = true then
                    { exp with currentLayerIndex := exp.currentLayerIndex + 1 }
                  else exp)

/-- The consumer loop of expecter.Listen over a finite message source; each
message arrives at an explicit instant.  The loop exits before reading a
message once every layer is satisfied (currentLayerIndex has reached the
number of layers), leaving the remaining messages unread; they are returned
alongside the final state.  The other exit (source closed) is the end of
the list. -/
def Listen {T : Type} (exp : expecter T) : List (Nat × T) → Option (expecter T × List (Nat × T))
  | [] => some (exp, [])
  | (now, message) :: rest =>
      if exp.expectLayers.length ≤ exp.currentLayerIndex then
        some (exp, (now, message) :: rest)
      else
        match listenStep exp now message with
        | none => none
        | some exp1 => Listen exp1 rest

/-- The error values from expecter.go. -/
inductive ExpErr (T : Type) where
  | TerminatedError (Timeout : Nat)
  | RejectionError (MessageNum : Nat) (MessageResult : MessageResult T)
  | UnsatisfiedError (ActiveLayerIdx : Nat)

/-- The result-log scan inside expecter.AwaitSatisfied: walk the log with
its running index and append one RejectionError per Rejected entry. -/
def collectRejections {T : Type} (acc : List (ExpErr T)) (idx : Nat) :
    List (MessageResult T) → List (ExpErr T)
  | [] => acc
  | res :: rest =>
      collectRejections
        (if res.Status = MessageStatus.Rejected then acc ++ [.RejectionError idx res] else acc)
        (idx + 1) rest

/-- expecter.AwaitSatisfied from expecter.go, after the consumer has
stopped.  finishedInTime is the boolean returned by awaitFinished: false
means the timeout fired and the consumer was cancelled.  The three checks
accumulate errors in order; none is fail-fast. -/
def AwaitSatisfied {T : Type} (finishedInTime : Bool) (exp : expecter T) (timeout : Nat) :
    List (ExpErr T) :=
  let outErr : List (ExpErr T) := []
  let outErr := if finishedInTime = false then outErr ++ [.TerminatedError timeout] else outErr
  let outErr := collectRejections outErr 0 exp.results
  match exp.expectLayers.get? exp.currentLayerIndex with
  | some currentLayer =>
      if currentLayer.IsSatisfied = false then outErr ++ [.UnsatisfiedError exp.currentLayerIndex]
      else outErr
  | none => outErr

/-- expecter.FPrintTrace from expecter.go, for string messages: pretty
print every result in order.  It reads only the result log; in particular
the debug flag of the expecter plays no part. -/
def expecter.FPrintTrace (exp : expecter String) : String :=
  String.join (exp.results.map fun msg => msg.PrettyPrint)

/-- Modelled from the spec (section 4.1, EACH): let counts be the recorded
counts for every matcher, a matcher with no recorded count counting as
zero.  Satisfied iff every count is within the min/max bounds, and every
matcher has been matched at least once if min is positive. -/
def specEachSatisfied {T : Type} (c : nCombiner T) : Bool :=
  ((List.range c.matchers.length).all fun i =>
      decide (c.min ≤ (countAt c.counts i : Int)) && decide ((countAt c.counts i : Int) ≤ c.max))
  && (!decide (0 < c.min)
      || (List.range c.matchers.length).all fun i => (c.counts.getD i none).isSome)

/-- Matcher index i is one the DoesMatch loop may credit for this message:
the matcher exists, it accepts the message, and in EACH mode it is not
already at its maximum count. -/
def eligible {T : Type} (c : nCombiner T) (message : T) (i : Nat) : Prop :=
  ∃ f, c.matchers.get? i = some f ∧ f message = true
    ∧ (c.mode = mode.modeEach → (countAt c.counts i : Int) < c.max)

/-- Concrete EACH combiner with min zero used to test the EACH
satisfaction rule: bounds zero to one over two matchers. -/
def c1exCombiner : nCombiner Nat :=
  BetweenNOfEach 0 1 [fun n => n == 0, fun n => n == 1]

/-- Concrete EACH combiner used as the witness input for the amended EACH
satisfaction rule. -/
def c1wCombiner : nCombiner Nat :=
  AllOf [fun n => n == 0, fun n => n == 1]

/-- Concrete SUM combiner with min and max both one. -/
def c2exCombiner : nCombiner Nat := ExactlyNOf 1 [fun _ => true]

/-- Concrete saturated combiner state used as the witness input for the
saturation rule. -/
def c3exCombiner : nCombiner Nat :=
  { matchers := [fun _ => true], min := 1, max := 1, counts := [some 1]
    mode := .modeSum, satisfied := true, saturated := true }

/-- Concrete layer used as the witness input for the layer satisfaction
rule: two AND-composed combiners, no timeout. -/
def c4exLayer : layer Nat :=
  { combiners := [OneOf [fun m => m == 5], OneOf [fun m => m == 6]]
    mode := .and, layerIdx := 0 }

/-- The result of presenting the message five to the witness layer. -/
def c4exOut : Bool × layer Nat := (c4exLayer.tryMatch 0 5).getD (false, c4exLayer)

/-- Concrete EACH combiner mid-run used as the witness input for the frame
rule: the first matcher is already at its maximum. -/
def c9exCombiner : nCombiner Nat :=
  ((AllOf [fun n => n == 0, fun n => n == 0]).DoesMatch 0).2

/-- Concrete layer with a configured timeout but no start time: the state
layer.tryMatch is unsafe on. -/
def c10exLayer : layer Nat :=
  { combiners := [OneOf [fun m => m == 1]], mode := .and, layerIdx := 0
    timeout := some 5, startTime := none }

/-- Concrete expecter used as the witness input for the consumer rules:
one ignore matcher and one single-combiner layer. -/
def c5exExpecter : expecter Nat :=
  { ignoreMatchers := [fun m => m == 9]
    expectLayers := [{ combiners := [OneOf [fun m => m == 1]], mode := .and, layerIdx := 0 }] }

/-- The message source fed to the witness expecter: an ignored message, a
rejected one, an accepted one that satisfies the layer, and one that is
never read. -/
def c5exMessages : List (Nat × Nat) := [(0, 9), (1, 5), (2, 1), (3, 7)]

/-- The final state and unread remainder of the witness consumer run. -/
def c5exOut : expecter Nat × List (Nat × Nat) :=
  (Listen c5exExpecter c5exMessages).getD (c5exExpecter, [])

/-- Concrete expecter (debug disabled) whose log carries a debug-level
trace entry. -/
def c8exExpecter : expecter String :=
  { ignoreMatchers := [], expectLayers := []
    results := [{ Message := "m", LayerIdx := 0, Status := .Accepted
                  Trace := newDebugTrace "hidden" [] }]
    debug := false }

/-! Helper lemmas (shared across several claims). -/

/-- A saturated combiner returns false from DoesMatch and leaves the whole
state untouched; the matcher predicates are not reached. -/
theorem doesMatch_of_saturated {T : Type} (c : nCombiner T) (message : T)
    (h : c.saturated = true) : c.DoesMatch message = (false, c) := by
  simp [nCombiner.DoesMatch, h]

/-- The two deferred flag updates change no other field. -/
theorem updateFlags_fields {T : Type} (c : nCombiner T) :
    c.updateSaturation.updateSatisifed.matchers = c.matchers
    ∧ c.updateSaturation.updateSatisifed.counts = c.counts
    ∧ c.updateSaturation.updateSatisifed.min = c.min
    ∧ c.updateSaturation.updateSatisifed.max = c.max
    ∧ c.updateSaturation.updateSatisifed.mode = c.mode := by
  refine ⟨rfl, rfl, rfl, rfl, rfl⟩

/-! C3: a saturated combiner rejects outright. -/

/-- C3.  In every mode, once a combiner is saturated, any tryMatch call
returns false while leaving counts and the satisfied and saturated flags
unchanged, and it does so without invoking any matcher predicate: the very
same rejection happens whatever the matcher list is replaced by. -/
theorem saturated_combiner_rejects_without_state_change {T : Type}
    (c : nCombiner T) (message : T) (h : c.saturated = true) :
    c.DoesMatch message = (false, c)
    ∧ ∀ ms : List (T → Bool),
        nCombiner.DoesMatch { c with matchers := ms } message
          = (false, { c with matchers := ms }) := by
  refine ⟨doesMatch_of_saturated c message h, fun ms => ?_⟩
  exact doesMatch_of_saturated { c with matchers := ms } message h

/-- Witness for C3 at a concrete saturated combiner. -/
theorem saturated_combiner_rejects_without_state_change_witness :
    c3exCombiner.saturated = true
    ∧ c3exCombiner.DoesMatch 7 = (false, c3exCombiner) := by
  exact ⟨rfl, (saturated_combiner_rejects_without_state_change c3exCombiner 7 rfl).1⟩

/-! C7: combiner construction performs no validation. -/

/-- C7 counterexample.  AllOf applied to an empty matcher list is not
rejected: it returns an ordinary combiner holding zero matchers, and that
combiner even reports itself satisfied after its first (vacuous) tryMatch
attempt. -/
theorem allOf_empty_constructs_counterexample :
    (AllOf ([] : List (Nat → Bool))).matchers.length = 0
    ∧ ((AllOf ([] : List (Nat → Bool))).DoesMatch 0).1 = false
    ∧ ((AllOf ([] : List (Nat → Bool))).DoesMatch 0).2.satisfied = true := by
  exact ⟨rfl, rfl, rfl⟩

/-- C7 amended.  No combiner constructor validates its matcher list: every
constructor unconditionally returns a combiner holding exactly the given
matchers (in particular for the empty list), and a zero-matcher EACH
combiner is vacuously satisfied after any tryMatch attempt. -/
theorem constructors_accept_any_matcher_list {T : Type} (n m : Int)
    (ms : List (T → Bool)) (t : T) :
    (AllOf ms).matchers = ms
    ∧ (OneOf ms).matchers = ms
    ∧ (AtLeastNOfEach n ms).matchers = ms
    ∧ (BetweenNOfEach n m ms).matchers = ms
    ∧ (ExactlyNOfEach n ms).matchers = ms
    ∧ (AtLeastNOfAny n ms).matchers = ms
    ∧ (BetweenNOfAny n m ms).matchers = ms
    ∧ (ExactlyNOfAny n ms).matchers = ms
    ∧ (AtLeastNOf n ms).matchers = ms
    ∧ (BetweenNOf n m ms).matchers = ms
    ∧ (ExactlyNOf n ms).matchers = ms
    ∧ ((ExactlyNOfEach n ([] : List (T → Bool))).DoesMatch t).2.satisfied = true := by
  refine ⟨rfl, rfl, rfl, rfl, rfl, rfl, rfl, rfl, rfl, rfl, rfl, rfl⟩

/-! C1 counterexample: EACH satisfaction with min zero. -/

/-- C1 counterexample.  For the EACH combiner with bounds zero to one over
two matchers, after one tryMatch attempt every count (a missing count
reading as zero) lies within the bounds and min is zero, so the
specification formula is satisfied, yet the code reports not satisfied:
the code demands a recorded count for every matcher regardless of min. -/
theorem each_min_zero_counterexample :
    c1exCombiner.min = 0
    ∧ specEachSatisfied ((c1exCombiner.DoesMatch 0).2) = true
    ∧ ((c1exCombiner.DoesMatch 0).2).satisfied = false := by
  exact ⟨rfl, rfl, rfl⟩

/-! C2 counterexample: SUM combiner past its exact bound. -/

/-- C2 counterexample.  For the SUM combiner with min and max both one,
the first matching message satisfies it; the second matching message is
rejected (the combiner is saturated), but satisfied stays true rather than
becoming false as claimed. -/
theorem sum_exact_counterexample :
    ((c2exCombiner.DoesMatch 0).2).satisfied = true
    ∧ (((c2exCombiner.DoesMatch 0).2).DoesMatch 1).1 = false
    ∧ ((((c2exCombiner.DoesMatch 0).2).DoesMatch 1).2).satisfied = true := by
  exact ⟨rfl, rfl, rfl⟩

/-! C8 counterexample: debug trace entries are always rendered. -/

/-- C8 counterexample.  PrintTrace renders a debug-level entry with a
DEBUG marker instead of omitting it: it consults no verbosity flag, and
FPrintTrace on an expecter whose debug flag is disabled still renders the
debug entry; the rendering the spec prescribes for a disabled flag is
empty, which disagrees with the code on this input. -/
theorem printTrace_debug_counterexample :
    (newDebugTrace "combiner state" []).PrintTrace 0 = "  - [DEBUG] combiner state\n"
    ∧ specPrintTrace false (newDebugTrace "combiner state" []) 0 = ""
    ∧ c8exExpecter.debug = false
    ∧ c8exExpecter.FPrintTrace = "Message 'm' - ACCEPTED:\n  - [DEBUG] hidden\n\n" := by
  refine ⟨rfl, rfl, rfl, rfl⟩

/-! Characterizations of the count map. -/

/-- The count map over an empty slot list. -/
theorem countsLen_nil : countsLen [] = 0 := rfl

/-- An unpopulated head slot contributes nothing to the map size. -/
theorem countsLen_cons_none (rest : List (Option Nat)) :
    countsLen (none :: rest) = countsLen rest := by
  simp [countsLen, countsValues, List.filterMap_cons]

/-- A populated head slot contributes one entry to the map size. -/
theorem countsLen_cons_some (v : Nat) (rest : List (Option Nat)) :
    countsLen (some v :: rest) = countsLen rest + 1 := by
  simp [countsLen, countsValues, List.filterMap_cons]

/-- The map holds at most one entry per matcher slot. -/
theorem countsLen_le (counts : List (Option Nat)) : countsLen counts ≤ counts.length := by
  induction counts with
  | nil => simp [countsLen_nil]
  | cons o rest ih =>
      cases o with
      | none => rw [countsLen_cons_none]; simp; omega
      | some v => rw [countsLen_cons_some]; simp; omega

/-- Reading a cons list at slot zero. -/
theorem getD_cons_zero' (o : Option Nat) (rest : List (Option Nat)) :
    (o :: rest).getD 0 none = o := rfl

/-- Reading a cons list at a successor slot. -/
theorem getD_cons_succ' (o : Option Nat) (rest : List (Option Nat)) (j : Nat) :
    (o :: rest).getD (j + 1) none = rest.getD j none := rfl

/-- The map holds an entry for every matcher exactly when every slot is
populated. -/
theorem countsLen_eq_iff (counts : List (Option Nat)) :
    countsLen counts = counts.length
      ↔ ∀ i < counts.length, (counts.getD i none).isSome = true := by
  induction counts with
  | nil => simp [countsLen_nil]
  | cons o rest ih =>
      cases o with
      | none =>
          rw [countsLen_cons_none]
          constructor
          · intro h
            exfalso
            have := countsLen_le rest
            simp only [List.length_cons] at h
            omega
          · intro h
            exfalso
            have h0 := h 0 (by simp)
            rw [getD_cons_zero'] at h0
            simp at h0
      | some v =>
          rw [countsLen_cons_some]
          simp only [List.length_cons]
          constructor
          · intro h i hi
            match i with
            | 0 => rw [getD_cons_zero']; rfl
            | Nat.succ j =>
                rw [getD_cons_succ']
                exact ih.mp (by omega) j (by omega)
          · intro h
            have : countsLen rest = rest.length := by
              apply ih.mpr
              intro j hj
              have := h (j + 1) (by omega)
              rwa [getD_cons_succ'] at this
            omega

/-- A boolean predicate holds of every recorded count exactly when it
holds of the value in every populated slot. -/
theorem countsValues_all_iff (p : Nat → Bool) (counts : List (Option Nat)) :
    ((countsValues counts).all p = true)
      ↔ ∀ i < counts.length, ∀ v, counts.getD i none = some v → p v = true := by
  induction counts with
  | nil => simp [countsValues]
  | cons o rest ih =>
      cases o with
      | none =>
          have hval : countsValues (none :: rest) = countsValues rest := by
            simp [countsValues, List.filterMap_cons]
          rw [hval]
          simp only [List.length_cons]
          constructor
          · intro h i hi v hv
            match i with
            | 0 => rw [getD_cons_zero'] at hv; cases hv
            | Nat.succ j =>
                rw [getD_cons_succ'] at hv
                exact ih.mp h j (by omega) v hv
          · intro h
            apply ih.mpr
            intro j hj v hv
            exact h (j + 1) (by omega) v (by rwa [getD_cons_succ'])
      | some w =>
          have hval : countsValues (some w :: rest) = w :: countsValues rest := by
            simp [countsValues, List.filterMap_cons]
          rw [hval, List.all_cons, Bool.and_eq_true]
          simp only [List.length_cons]
          constructor
          · rintro ⟨hw, h⟩ i hi v hv
            match i with
            | 0 =>
                rw [getD_cons_zero'] at hv
                cases hv
                exact hw
            | Nat.succ j =>
                rw [getD_cons_succ'] at hv
                exact ih.mp h j (by omega) v hv
          · intro h
            constructor
            · exact h 0 (by omega) w (by rw [getD_cons_zero'])
            · apply ih.mpr
              intro j hj v hv
              exact h (j + 1) (by omega) v (by rwa [getD_cons_succ'])

/-- The EACH branch of updateSatisifed, characterized slot by slot: the
flag it computes is true exactly when every matcher slot is populated and
every recorded count lies within the bounds. -/
theorem updateSatisifed_each_iff {T : Type} (c : nCombiner T)
    (hmode : c.mode = mode.modeEach)
    (hwf : c.counts.length = c.matchers.length) :
    (c.updateSatisifed.satisfied = true
      ↔ ∀ i < c.matchers.length,
          (c.counts.getD i none).isSome = true
          ∧ c.min ≤ (countAt c.counts i : Int) ∧ (countAt c.counts i : Int) ≤ c.max) := by
  show ((match c.mode with
        | mode.modeEach =>
            countsLen c.counts == c.matchers.length
              && (countsValues c.counts).all fun n =>
                   decide (c.min ≤ (n : Int)) && decide ((n : Int) ≤ c.max)
        | mode.modeAny => _
        | mode.modeSum => _) = true ↔ _)
  rw [hmode]
  rw [Bool.and_eq_true, beq_iff_eq, ← hwf, countsLen_eq_iff, countsValues_all_iff]
  constructor
  · rintro ⟨h1, h2⟩ i hi
    have hi' : i < c.counts.length := hwf ▸ hi
    have hsome := h1 i hi'
    obtain ⟨v, hv⟩ := Option.isSome_iff_exists.mp hsome
    have hcnt : countAt c.counts i = v := by unfold countAt; rw [hv]; rfl
    have := h2 i hi' v hv
    rw [Bool.and_eq_true, decide_eq_true_iff, decide_eq_true_iff] at this
    exact ⟨hsome, by rw [hcnt]; exact this.1, by rw [hcnt]; exact this.2⟩
  · intro h
    constructor
    · intro i hi
      exact (h i (hwf ▸ hi)).1
    · intro i hi v hv
      obtain ⟨-, h1, h2⟩ := h i (hwf ▸ hi)
      have hcnt : countAt c.counts i = v := by unfold countAt; rw [hv]; rfl
      rw [hcnt] at h1 h2
      rw [Bool.and_eq_true, decide_eq_true_iff, decide_eq_true_iff]
      exact ⟨h1, h2⟩

/-! C1: EACH-mode satisfaction after a tryMatch attempt. -/

/-- C1 amended.  For every EACH-mode combiner whose satisfied flag is
consistent with its counts, after any tryMatch attempt the flag is true
exactly when every matcher has a recorded count (has matched at least
once) and every count is within the bounds — regardless of min; in
particular, even with min zero a matcher that never matched prevents
satisfaction. -/
theorem each_satisfied_after_tryMatch {T : Type} (c : nCombiner T) (message : T)
    (hmode : c.mode = mode.modeEach)
    (hwf : c.counts.length = c.matchers.length)
    (hflag : c.satisfied = c.updateSatisifed.satisfied) :
    (((c.DoesMatch message).2).satisfied = true
      ↔ ∀ i < ((c.DoesMatch message).2).matchers.length,
          (((c.DoesMatch message).2).counts.getD i none).isSome = true
          ∧ ((c.DoesMatch message).2).min ≤ (countAt ((c.DoesMatch message).2).counts i : Int)
          ∧ (countAt ((c.DoesMatch message).2).counts i : Int) ≤ ((c.DoesMatch message).2).max) := by
  by_cases hs : c.saturated = true
  · have h2 : (c.DoesMatch message).2 = c := by
      rw [doesMatch_of_saturated c message hs]
    rw [h2, hflag]
    exact updateSatisifed_each_iff c hmode hwf
  · have hs' : c.saturated = false := by
      revert hs; cases c.saturated <;> simp
    unfold nCombiner.DoesMatch
    rw [hs']
    simp only [Bool.false_eq_true, if_false]
    cases hml : matchLoop c message 0 c.matchers with
    | some i =>
        simp only
        exact updateSatisifed_each_iff { c with counts := incrAt c.counts i } hmode
          (by simp [incrAt, hwf])
    | none =>
        simp only
        exact updateSatisifed_each_iff c hmode hwf

/-- Witness for the amended C1 at a concrete fresh EACH combiner. -/
theorem each_satisfied_after_tryMatch_witness :
    c1wCombiner.mode = mode.modeEach
    ∧ c1wCombiner.counts.length = c1wCombiner.matchers.length
    ∧ c1wCombiner.satisfied = c1wCombiner.updateSatisifed.satisfied
    ∧ (((c1wCombiner.DoesMatch 0).2).satisfied = true
        ↔ ∀ i < ((c1wCombiner.DoesMatch 0).2).matchers.length,
            (((c1wCombiner.DoesMatch 0).2).counts.getD i none).isSome = true
            ∧ ((c1wCombiner.DoesMatch 0).2).min
                ≤ (countAt ((c1wCombiner.DoesMatch 0).2).counts i : Int)
            ∧ (countAt ((c1wCombiner.DoesMatch 0).2).counts i : Int)
                ≤ ((c1wCombiner.DoesMatch 0).2).max) := by
  exact ⟨rfl, rfl, rfl, each_satisfied_after_tryMatch c1wCombiner 0 rfl rfl rfl⟩

/-! Arithmetic of the count map under one increment. -/

/-- A fresh count map records nothing. -/
theorem countsValues_replicate_none (k : Nat) :
    countsValues (List.replicate k none) = [] := by
  induction k with
  | zero => rfl
  | succ n ih => simpa [countsValues, List.filterMap_cons] using ih

/-- Incrementing one slot preserves the number of slots. -/
theorem length_incrAt (counts : List (Option Nat)) (i : Nat) :
    (incrAt counts i).length = counts.length := by
  simp [incrAt]

/-- Incrementing a slot within range raises the total of recorded counts
by exactly one (a previously absent key appears with value one). -/
theorem sum_incrAt (counts : List (Option Nat)) (i : Nat) (h : i < counts.length) :
    (countsValues (incrAt counts i)).sum = (countsValues counts).sum + 1 := by
  induction counts generalizing i with
  | nil => simp at h
  | cons o rest ih =>
      match i with
      | 0 =>
          cases o with
          | none =>
              simp [incrAt, countAt, countsValues, List.filterMap_cons] <;> omega
          | some v =>
              simp [incrAt, countAt, countsValues, List.filterMap_cons] <;> omega
      | Nat.succ j =>
          have hj : j < rest.length := by simp at h; omega
          have hset : incrAt (o :: rest) (j + 1) = o :: incrAt rest j := by
            simp [incrAt, countAt, getD_cons_succ']
          rw [hset]
          cases o with
          | none =>
              simp only [countsValues, List.filterMap_cons, id_eq]
              exact ih j hj
          | some v =>
              simp only [countsValues, List.filterMap_cons, id_eq, List.sum_cons]
              have := ih j hj
              simp only [countsValues] at this
              omega

/-! The matcher loop outside EACH mode. -/

/-- Outside EACH mode the matcher loop accepts whenever some matcher
matches, crediting an index within range. -/
theorem matchLoop_some_of_any {T : Type} (c : nCombiner T) (message : T)
    (hmode : c.mode ≠ mode.modeEach) :
    ∀ (ms : List (T → Bool)) (i : Nat), ms.any (fun f => f message) = true →
      ∃ j, matchLoop c message i ms = some j ∧ j < i + ms.length := by
  intro ms
  induction ms with
  | nil => intro i h; simp at h
  | cons f rest ih =>
      intro i h
      by_cases hf : f message = true
      · refine ⟨i, ?_, by simp only [List.length_cons]; omega⟩
        unfold matchLoop
        rw [hf]
        simp only [if_true]
        rw [if_neg]
        rintro ⟨he, -⟩
        exact hmode he
      · have hf' : f message = false := by revert hf; cases f message <;> simp
        have hrest : rest.any (fun f => f message) = true := by
          simp only [List.any_cons, Bool.or_eq_true] at h
          rcases h with h | h
          · exact absurd h hf
          · exact h
        obtain ⟨j, hj, hjlt⟩ := ih (i + 1) hrest
        refine ⟨j, ?_, by simp only [List.length_cons] at hjlt ⊢; omega⟩
        unfold matchLoop
        rw [hf']
        simpa using hj

/-! SUM-mode flag computation. -/

/-- What the two deferred updates compute for a SUM-mode combiner. -/
theorem updateFlags_sum {T : Type} (x : nCombiner T) (hmode : x.mode = mode.modeSum) :
    (x.updateSaturation.updateSatisifed).satisfied
        = (decide (x.min ≤ x.sumMatches) && decide (x.sumMatches ≤ x.max))
    ∧ (x.updateSaturation.updateSatisifed).saturated = decide (x.max ≤ x.sumMatches) := by
  constructor
  · show (match x.mode with
      | mode.modeEach =>
          countsLen x.counts == x.matchers.length
            && (countsValues x.counts).all fun n =>
                 decide (x.min ≤ (n : Int)) && decide ((n : Int) ≤ x.max)
      | mode.modeAny =>
          (countsValues x.counts).any fun n =>
            decide (x.min ≤ (n : Int)) && decide ((n : Int) ≤ x.max)
      | mode.modeSum =>
          decide (x.min ≤ x.sumMatches) && decide (x.sumMatches ≤ x.max)) = _
    rw [hmode]
  · show (match x.mode with
      | mode.modeEach =>
          countsLen x.counts == x.matchers.length
            && (countsValues x.counts).all fun n => decide (x.max ≤ (n : Int))
      | mode.modeAny =>
          (countsValues x.counts).any fun n => decide (x.max ≤ (n : Int))
      | mode.modeSum => decide (x.max ≤ x.sumMatches)) = _
    rw [hmode]

/-- One DoesMatch step of an unsaturated SUM-mode combiner on a message
some matcher accepts: the message is taken, the total rises by one, and
both flags are recomputed from the new total. -/
theorem sum_step {T : Type} (c : nCombiner T) (message : T)
    (hmode : c.mode = mode.modeSum)
    (hwf : c.counts.length = c.matchers.length)
    (hsat : c.saturated = false)
    (hmatch : c.matchers.any (fun f => f message) = true) :
    (c.DoesMatch message).1 = true
    ∧ ((c.DoesMatch message).2).mode = mode.modeSum
    ∧ ((c.DoesMatch message).2).matchers = c.matchers
    ∧ ((c.DoesMatch message).2).min = c.min
    ∧ ((c.DoesMatch message).2).max = c.max
    ∧ ((c.DoesMatch message).2).counts.length = c.counts.length
    ∧ ((c.DoesMatch message).2).sumMatches = c.sumMatches + 1
    ∧ ((c.DoesMatch message).2).satisfied
        = (decide (c.min ≤ c.sumMatches + 1) && decide (c.sumMatches + 1 ≤ c.max))
    ∧ ((c.DoesMatch message).2).saturated = decide (c.max ≤ c.sumMatches + 1) := by
  have hne : c.mode ≠ mode.modeEach := by rw [hmode]; intro h; cases h
  obtain ⟨j, hj, hjlt⟩ := matchLoop_some_of_any c message hne c.matchers 0 hmatch
  have hjlt' : j < c.counts.length := by rw [hwf]; omega
  have hres : c.DoesMatch message
      = (true, ({ c with counts := incrAt c.counts j }).updateSaturation.updateSatisifed) := by
    unfold nCombiner.DoesMatch
    rw [hsat, hj]
    rfl
  set x : nCombiner T := { c with counts := incrAt c.counts j } with hx
  have hxsum : x.sumMatches = c.sumMatches + 1 := by
    show ((countsValues x.counts).sum : Int) = ((countsValues c.counts).sum : Int) + 1
    have := sum_incrAt c.counts j hjlt'
    rw [hx]
    simp only
    rw [this]
    push_cast
    ring
  obtain ⟨hsatis, hsatu⟩ := updateFlags_sum x (by rw [hx]; exact hmode)
  rw [hres]
  refine ⟨rfl, hmode, rfl, rfl, rfl, ?_, ?_, ?_, ?_⟩
  · show (incrAt c.counts j).length = c.counts.length
    exact length_incrAt c.counts j
  · show x.sumMatches = c.sumMatches + 1
    exact hxsum
  · rw [hsatis, hxsum]
  · rw [hsatu, hxsum]

/-- Invariant run of a SUM-mode combiner with min and max both n: as long
as every message is accepted by some matcher and the running total plus
the remaining messages is exactly n, the feed ends satisfied and
saturated with total n. -/
theorem sum_run {T : Type} (n : Nat) :
    ∀ (messages : List T) (c : nCombiner T),
      c.mode = mode.modeSum →
      c.counts.length = c.matchers.length →
      c.min = (n : Int) → c.max = (n : Int) →
      (∀ m ∈ messages, c.matchers.any (fun f => f m) = true) →
      c.saturated = decide ((n : Int) ≤ c.sumMatches) →
      c.satisfied = (decide ((n : Int) ≤ c.sumMatches) && decide (c.sumMatches ≤ (n : Int))) →
      c.sumMatches + messages.length = (n : Int) →
      (feedMessages c messages).satisfied = true
      ∧ (feedMessages c messages).saturated = true := by
  intro messages
  induction messages with
  | nil =>
      intro c hmode hwf hmin hmax hall hsatu hsatis hsum
      have hsum' : c.sumMatches = (n : Int) := by simpa using hsum
      refine ⟨?_, ?_⟩
      · show c.satisfied = true
        simp [hsatis, hsum']
      · show c.saturated = true
        simp [hsatu, hsum']
  | cons m rest ih =>
      intro c hmode hwf hmin hmax hall hsatu hsatis hsum
      have hlen : ((m :: rest).length : Int) = (rest.length : Int) + 1 := by
        simp only [List.length_cons]
        push_cast
        ring
      have hlt : c.sumMatches < (n : Int) := by
        rw [hlen] at hsum
        have : (0 : Int) ≤ (rest.length : Int) := Int.ofNat_nonneg rest.length
        omega
      have hsatu' : c.saturated = false := by
        rw [hsatu, decide_eq_false_iff_not]
        omega
      obtain ⟨h1, h2, h3, h4, h5, h6, h7, h8, h9⟩ :=
        sum_step c m hmode hwf hsatu' (hall m (by simp))
      have hfeed : feedMessages c (m :: rest) = feedMessages ((c.DoesMatch m).2) rest := rfl
      rw [hfeed]
      refine ih ((c.DoesMatch m).2) h2 ?_ ?_ ?_ ?_ ?_ ?_ ?_
      · rw [h6, h3]
        exact hwf
      · rw [h4]
        exact hmin
      · rw [h5]
        exact hmax
      · intro mm hm
        rw [h3]
        exact hall mm (by simp [hm])
      · rw [h9, h7, hmax]
      · rw [h8, h7, hmin, hmax]
      · rw [h7]
        rw [hlen] at hsum
        omega

/-! C2: a SUM combiner with exact bound n. -/

/-- C2 amended.  For every SUM-mode combiner with min and max both n
(n at least one), feeding exactly n messages each accepted by some matcher
leaves it satisfied and saturated; one further matching message is
rejected outright because the combiner is saturated, and satisfied remains
true rather than turning false. -/
theorem sum_exactly_n_run {T : Type} (n : Nat) (hn : 1 ≤ n) (ms : List (T → Bool))
    (messages : List T) (hlen : messages.length = n)
    (hmatch : ∀ m ∈ messages, ms.any (fun f => f m) = true)
    (extra : T) :
    (feedMessages (ExactlyNOf (n : Int) ms) messages).satisfied = true
    ∧ (feedMessages (ExactlyNOf (n : Int) ms) messages).saturated = true
    ∧ (feedMessages (ExactlyNOf (n : Int) ms) messages).DoesMatch extra
        = (false, feedMessages (ExactlyNOf (n : Int) ms) messages) := by
  have hfresh : (ExactlyNOf (n : Int) ms : nCombiner T).sumMatches = 0 := by
    show ((countsValues (List.replicate ms.length none)).sum : Int) = 0
    rw [countsValues_replicate_none]
    rfl
  have h0 : decide ((n : Int) ≤ 0) = false := by
    rw [decide_eq_false_iff_not]
    omega
  have hrun := sum_run n messages (ExactlyNOf (n : Int) ms) rfl (by simp [ExactlyNOf]) rfl rfl
    hmatch
    (by rw [hfresh]
        show false = decide ((n : Int) ≤ 0)
        rw [h0])
    (by rw [hfresh]
        show false = (decide ((n : Int) ≤ 0) && decide ((0 : Int) ≤ (n : Int)))
        rw [h0]
        simp)
    (by rw [hfresh, hlen]; ring)
  exact ⟨hrun.1, hrun.2, doesMatch_of_saturated _ extra hrun.2⟩

/-- Witness for the amended C2 at n equal to two. -/
theorem sum_exactly_n_run_witness :
    ((2 : Nat) ≤ 2)
    ∧ ([0, 0] : List Nat).length = 2
    ∧ (feedMessages (ExactlyNOf (2 : Int) [fun (_ : Nat) => true]) [0, 0]).satisfied = true
    ∧ (feedMessages (ExactlyNOf (2 : Int) [fun (_ : Nat) => true]) [0, 0]).saturated = true := by
  have h := sum_exactly_n_run 2 (by omega) [fun (_ : Nat) => true] [0, 0] rfl
    (by intro m hm; rfl) 5
  exact ⟨by omega, rfl, h.1, h.2.1⟩

/-! Slot updates under one increment. -/

/-- Setting one slot leaves every other slot unchanged. -/
theorem getD_set_ne' (counts : List (Option Nat)) (a : Option Nat) :
    ∀ (i j : Nat), i ≠ j → (counts.set j a).getD i none = counts.getD i none := by
  induction counts with
  | nil => intro i j h; rfl
  | cons o rest ih =>
      intro i j h
      match j with
      | 0 =>
          match i with
          | 0 => exact absurd rfl h
          | Nat.succ k => rfl
      | Nat.succ j' =>
          match i with
          | 0 => rfl
          | Nat.succ k =>
              show (rest.set j' a).getD k none = rest.getD k none
              exact ih k j' (by omega)

/-- Incrementing a slot within range raises exactly that count by one. -/
theorem getD_incrAt_self (counts : List (Option Nat)) :
    ∀ (j : Nat), j < counts.length →
      (incrAt counts j).getD j none = some (countAt counts j + 1) := by
  induction counts with
  | nil => intro j h; simp at h
  | cons o rest ih =>
      intro j h
      match j with
      | 0 => rfl
      | Nat.succ j' =>
          show (rest.set j' (some (countAt (o :: rest) (j' + 1) + 1))).getD j' none = _
          rw [show countAt (o :: rest) (j' + 1) = countAt rest j' from rfl]
          exact ih j' (by simp at h; omega)

/-! The matcher loop finds the first eligible matcher. -/

/-- The matcher loop started at offset i over the tail of the matcher list
returns exactly the first eligible index at or after i, and returns none
exactly when no index in its window is eligible. -/
theorem matchLoop_first_eligible {T : Type} (c : nCombiner T) (message : T) :
    ∀ (ms : List (T → Bool)) (i : Nat),
      (∀ d, ms.get? d = c.matchers.get? (i + d)) →
      (∀ j, matchLoop c message i ms = some j →
          i ≤ j ∧ eligible c message j ∧ ∀ t, i ≤ t → t < j → ¬ eligible c message t)
      ∧ (matchLoop c message i ms = none →
          ∀ t, i ≤ t → t < i + ms.length → ¬ eligible c message t) := by
  intro ms
  induction ms with
  | nil =>
      intro i hms
      constructor
      · intro j hj
        cases hj
      · intro hn t ht1 ht2
        simp at ht2
        omega
  | cons f rest ih =>
      intro i hms
      have hms0 : c.matchers.get? i = some f := by
        have := hms 0
        simpa using this.symm
      have hms' : ∀ d, rest.get? d = c.matchers.get? (i + 1 + d) := by
        intro d
        have := hms (d + 1)
        rw [show i + (d + 1) = i + 1 + d from by omega] at this
        exact this
      have hnoteligi : f message = false → ¬ eligible c message i := by
        rintro hf ⟨g, hg, hgm, -⟩
        rw [hms0] at hg
        cases hg
        rw [hf] at hgm
        cases hgm
      by_cases hf : f message = true
      · by_cases hcond : c.mode = mode.modeEach ∧ c.max ≤ (countAt c.counts i : Int)
        · -- matcher matches but is individually exhausted: skipped
          have hstep : matchLoop c message i (f :: rest) = matchLoop c message (i + 1) rest := by
            conv_lhs => rw [matchLoop]
            rw [if_pos hf, if_pos hcond]
          have hnoteligi' : ¬ eligible c message i := by
            rintro ⟨g, hg, -, himp⟩
            rw [hms0] at hg
            cases hg
            have := himp hcond.1
            omega
          obtain ⟨ihs, ihn⟩ := ih (i + 1) hms'
          rw [hstep]
          constructor
          · intro j hj
            obtain ⟨h1, h2, h3⟩ := ihs j hj
            refine ⟨by omega, h2, ?_⟩
            intro t ht1 ht2
            rcases Nat.eq_or_lt_of_le ht1 with h | h
            · exact h ▸ hnoteligi'
            · exact h3 t (by omega) ht2
          · intro hn t ht1 ht2
            simp only [List.length_cons] at ht2
            rcases Nat.eq_or_lt_of_le ht1 with h | h
            · exact h ▸ hnoteligi'
            · exact ihn hn t (by omega) (by omega)
        · -- matcher matches and is credited
          have hstep : matchLoop c message i (f :: rest) = some i := by
            conv_lhs => rw [matchLoop]
            rw [if_pos hf, if_neg hcond]
          have heligi : eligible c message i := by
            refine ⟨f, hms0, hf, ?_⟩
            intro he
            by_contra hle
            exact hcond ⟨he, by omega⟩
          rw [hstep]
          constructor
          · intro j hj
            cases hj
            exact ⟨Nat.le_refl i, heligi, fun t ht1 ht2 => by omega⟩
          · intro hn
            cases hn
      · have hf' : f message = false := by revert hf; cases f message <;> simp
        have hstep : matchLoop c message i (f :: rest) = matchLoop c message (i + 1) rest := by
          conv_lhs => rw [matchLoop]
          rw [if_neg (show ¬ (f message = true) from by simp [hf'])]
        obtain ⟨ihs, ihn⟩ := ih (i + 1) hms'
        rw [hstep]
        constructor
        · intro j hj
          obtain ⟨h1, h2, h3⟩ := ihs j hj
          refine ⟨by omega, h2, ?_⟩
          intro t ht1 ht2
          rcases Nat.eq_or_lt_of_le ht1 with h | h
          · exact h ▸ hnoteligi hf'
          · exact h3 t (by omega) ht2
        · intro hn t ht1 ht2
          simp only [List.length_cons] at ht2
          rcases Nat.eq_or_lt_of_le ht1 with h | h
          · exact h ▸ hnoteligi hf'
          · exact ihn hn t (by omega) (by omega)

/-! C9: the frame of one tryMatch call. -/

/-- C9.  In every mode: a tryMatch call that returns true credits exactly
one matcher — the first in declaration order that matches and, in EACH
mode, is not already at its maximum — raising its count by exactly one and
leaving every other slot untouched; a call that returns false leaves the
whole count map unchanged. -/
theorem tryMatch_frame {T : Type} (c : nCombiner T) (message : T)
    (hwf : c.counts.length = c.matchers.length) :
    ((c.DoesMatch message).1 = true →
      ∃ j, eligible c message j ∧ (∀ t, t < j → ¬ eligible c message t)
        ∧ ((c.DoesMatch message).2).counts.getD j none = some (countAt c.counts j + 1)
        ∧ ∀ i, i ≠ j → ((c.DoesMatch message).2).counts.getD i none = c.counts.getD i none)
    ∧ ((c.DoesMatch message).1 = false → ((c.DoesMatch message).2).counts = c.counts) := by
  by_cases hs : c.saturated = true
  · rw [doesMatch_of_saturated c message hs]
    constructor
    · intro h
      cases h
    · intro h
      rfl
  · have hs' : c.saturated = false := by revert hs; cases c.saturated <;> simp
    unfold nCombiner.DoesMatch
    rw [hs']
    simp only [Bool.false_eq_true, if_false]
    cases hml : matchLoop c message 0 c.matchers with
    | some j =>
        simp only
        constructor
        · rintro -
          have hms : ∀ d, c.matchers.get? d = c.matchers.get? (0 + d) := by
            intro d
            rw [Nat.zero_add]
          obtain ⟨-, helig, hfirst⟩ :=
            (matchLoop_first_eligible c message c.matchers 0 hms).1 j hml
          have hjlt : j < c.counts.length := by
            obtain ⟨g, hg, -, -⟩ := helig
            rw [hwf]
            by_contra hle
            rw [List.get?_eq_none.mpr (by omega)] at hg
            cases hg
          refine ⟨j, helig, fun t ht => hfirst t (by omega) ht, ?_, ?_⟩
          · show (incrAt c.counts j).getD j none = some (countAt c.counts j + 1)
            exact getD_incrAt_self c.counts j hjlt
          · intro i hi
            show (incrAt c.counts j).getD i none = c.counts.getD i none
            exact getD_set_ne' c.counts _ i j hi
        · intro h
          cases h
    | none =>
        simp only
        constructor
        · intro h
          cases h
        · rintro -
          rfl

/-- Witness for C9: the EACH combiner whose first matcher is exhausted
credits the second. -/
theorem tryMatch_frame_witness :
    c9exCombiner.counts.length = c9exCombiner.matchers.length
    ∧ ((c9exCombiner.DoesMatch 0).1 = true →
        ∃ j, eligible c9exCombiner 0 j ∧ (∀ t, t < j → ¬ eligible c9exCombiner 0 t)
          ∧ ((c9exCombiner.DoesMatch 0).2).counts.getD j none
              = some (countAt c9exCombiner.counts j + 1)
          ∧ ∀ i, i ≠ j →
              ((c9exCombiner.DoesMatch 0).2).counts.getD i none
                = c9exCombiner.counts.getD i none) := by
  exact ⟨rfl, (tryMatch_frame c9exCombiner 0 rfl).1⟩

/-! C4: the layer satisfied flag is the mode aggregate of its combiners. -/

/-- C4.  After any layer tryMatch attempt that is not cut short by the
timeout, the satisfied flag of the resulting layer equals, in AND mode,
the conjunction of IsSatisfied over all its combiners and, in OR mode,
their disjunction.  The equivalence holds for every starting layer state,
so it is independent of the order in which earlier messages were
distributed across the combiners. -/
theorem layer_satisfied_is_mode_aggregate {T : Type} (l : layer T) (now : Nat) (message : T)
    (hto : l.timeoutElapsed now = some false) (ok : Bool) (l1 : layer T)
    (h : l.tryMatch now message = some (ok, l1)) :
    (l.mode = LayerMode.and → (l1.satisfied = true ↔ ∀ c ∈ l1.combiners, c.IsSatisfied = true))
    ∧ (l.mode = LayerMode.or → (l1.satisfied = true ↔ ∃ c ∈ l1.combiners, c.IsSatisfied = true)) := by
  unfold layer.tryMatch at h
  rw [hto] at h
  simp only [Option.some.injEq, Prod.mk.injEq] at h
  obtain ⟨-, h2⟩ := h
  subst h2
  cases hmm : l.mode with
  | and =>
      exact ⟨fun _ => List.all_eq_true, fun habs => LayerMode.noConfusion habs⟩
  | or =>
      exact ⟨fun habs => LayerMode.noConfusion habs, fun _ => List.any_eq_true⟩

/-- Witness for C4 at a concrete two-combiner AND layer. -/
theorem layer_satisfied_is_mode_aggregate_witness :
    c4exLayer.timeoutElapsed 0 = some false
    ∧ c4exLayer.tryMatch 0 5 = some (c4exOut.1, c4exOut.2)
    ∧ (c4exLayer.mode = LayerMode.and →
        (c4exOut.2.satisfied = true ↔ ∀ c ∈ c4exOut.2.combiners, c.IsSatisfied = true)) := by
  exact ⟨rfl, rfl,
    (layer_satisfied_is_mode_aggregate c4exLayer 0 5 rfl c4exOut.1 c4exOut.2 rfl).1⟩

/-! C6: the diagnostic pass of AwaitSatisfied. -/

/-- The indexed result-log scan, written as a filter over the enumerated
log appended to the accumulator. -/
theorem collectRejections_eq {T : Type} :
    ∀ (rs : List (MessageResult T)) (acc : List (ExpErr T)) (idx : Nat),
      collectRejections acc idx rs
        = acc ++ ((List.enumFrom idx rs).filter
              fun p => decide (p.2.Status = MessageStatus.Rejected)).map
            fun p => ExpErr.RejectionError p.1 p.2 := by
  intro rs
  induction rs with
  | nil => intro acc idx; simp [collectRejections]
  | cons r rest ih =>
      intro acc idx
      show collectRejections
          (if r.Status = MessageStatus.Rejected then acc ++ [.RejectionError idx r] else acc)
          (idx + 1) rest = _
      rw [ih]
      by_cases hr : r.Status = MessageStatus.Rejected
      · rw [if_pos hr]
        simp [List.enumFrom_cons, List.filter_cons, hr]
      · rw [if_neg hr]
        simp [List.enumFrom_cons, List.filter_cons, hr]

/-- C6.  After the consumer has stopped, AwaitSatisfied returns exactly:
one TerminatedError iff the timeout forced cancellation, then one
RejectionError (carrying the running message index and the full logged
result) for every Rejected entry of the result log in order, then one
UnsatisfiedError iff the current layer index is still below the number of
layers and that layer is not satisfied — all together, with no early
exit. -/
theorem awaitSatisfied_collects_all_errors {T : Type} (finishedInTime : Bool)
    (exp : expecter T) (timeout : Nat) :
    AwaitSatisfied finishedInTime exp timeout
      = (if finishedInTime = false then [ExpErr.TerminatedError timeout] else [])
        ++ (((List.enumFrom 0 exp.results).filter
              fun p => decide (p.2.Status = MessageStatus.Rejected)).map
            fun p => ExpErr.RejectionError p.1 p.2)
        ++ (if h : exp.currentLayerIndex < exp.expectLayers.length then
              (if (exp.expectLayers.get ⟨exp.currentLayerIndex, h⟩).IsSatisfied = false then
                [ExpErr.UnsatisfiedError exp.currentLayerIndex]
              else [])
            else []) := by
  simp only [AwaitSatisfied]
  rw [collectRejections_eq]
  by_cases hidx : exp.currentLayerIndex < exp.expectLayers.length
  · rw [List.get?_eq_get hidx, dif_pos hidx]
    dsimp only
    by_cases hsat : (exp.expectLayers.get ⟨exp.currentLayerIndex, hidx⟩).IsSatisfied = false
    · rw [if_pos hsat, if_pos hsat]
      simp
    · rw [if_neg hsat, if_neg hsat]
      simp
  · rw [List.get?_eq_none.mpr (by omega), dif_neg hidx]
    dsimp only
    simp

/-! C8: every trace node is rendered, debug or not. -/

/-- Newlines in a concatenation. -/
theorem countLines_append (a b : String) :
    countLines (a ++ b) = countLines a + countLines b := by
  simp [countLines, String.data_append]

/-- The indentation blocks contain no newline. -/
theorem countLines_strRepeat_indent (n : Nat) : countLines (strRepeat "  " n) = 0 := by
  induction n with
  | zero => rfl
  | succ k ih =>
      show countLines ("  " ++ strRepeat "  " k) = 0
      rw [countLines_append, ih]
      rfl

/-- The level marker is never a newline. -/
theorem countLines_marker (lvl : Nat) :
    countLines (String.singleton (levelMarkers.getD (lvl % levelMarkers.length) '-')) = 0 := by
  have h : lvl % 4 = 0 ∨ lvl % 4 = 1 ∨ lvl % 4 = 2 ∨ lvl % 4 = 3 := by omega
  have hlen : lvl % levelMarkers.length = lvl % 4 := rfl
  rcases h with h | h | h | h <;> rw [hlen, h] <;> rfl

/-- A string whose characters do not include the newline has no lines. -/
theorem countLines_of_contains_false (message : String)
    (h : message.data.contains '\n' = false) : countLines message = 0 := by
  show message.data.count '\n' = 0
  rw [List.count_eq_zero]
  intro hmem
  rw [List.contains_eq_any_beq] at h
  have : message.data.any (fun x => '\n' == x) = true := by
    rw [List.any_eq_true]
    exact ⟨'\n', hmem, by simp⟩
  rw [this] at h
  cases h

/-- Every rendered node line holds exactly one newline. -/
theorem countLines_renderLine (message : String) (md : messageMode) (lvl : Nat)
    (h : message.data.contains '\n' = false) :
    countLines (renderLine message md lvl) = 1 := by
  unfold renderLine
  rw [countLines_append, countLines_append, countLines_append, countLines_append]
  rw [countLines_strRepeat_indent, countLines_marker, countLines_of_contains_false message h]
  cases md <;> rfl

mutual

/-- A trace tree with newline-free messages renders one line per node,
whatever the verbosity of each node. -/
theorem countLines_PrintTrace : ∀ (t : TraceMessage) (lvl : Nat),
    noNewlines t = true → countLines (t.PrintTrace lvl) = nodeCount t
  | .node message nested md, lvl, h => by
      have hsplit : message.data.contains '\n' = false ∧ noNewlinesList nested = true := by
        have h' : (!(message.data.contains '\n') && noNewlinesList nested) = true := h
        rw [Bool.and_eq_true, Bool.not_eq_eq_eq_not] at h'
        exact ⟨h'.1, h'.2⟩
      show countLines (renderLine message md lvl ++ PrintTraceList nested (lvl + 1))
          = 1 + nodeCountList nested
      rw [countLines_append, countLines_renderLine message md lvl hsplit.1,
        countLines_PrintTraceList nested (lvl + 1) hsplit.2]

/-- countLines_PrintTrace over a list of trace trees. -/
theorem countLines_PrintTraceList : ∀ (ts : List TraceMessage) (lvl : Nat),
    noNewlinesList ts = true → countLines (PrintTraceList ts lvl) = nodeCountList ts
  | [], _, _ => rfl
  | t :: ts, lvl, h => by
      have hsplit : noNewlines t = true ∧ noNewlinesList ts = true := by
        have h' : (noNewlines t && noNewlinesList ts) = true := h
        rw [Bool.and_eq_true] at h'
        exact h'
      show countLines (t.PrintTrace lvl ++ PrintTraceList ts lvl)
          = nodeCount t + nodeCountList ts
      rw [countLines_append, countLines_PrintTrace t lvl hsplit.1,
        countLines_PrintTraceList ts lvl hsplit.2]

end

/-- C8 amended.  Trace rendering never omits an entry: FPrintTrace output
is unchanged by the debug flag of the expecter, and PrintTrace prints
exactly one line per trace node — debug-level nodes included, which are
marked with a DEBUG tag rather than suppressed. -/
theorem printTrace_renders_every_node (exp : expecter String) (b : Bool)
    (t : TraceMessage) (lvl : Nat) (h : noNewlines t = true) :
    expecter.FPrintTrace { exp with debug := b } = expecter.FPrintTrace exp
    ∧ countLines (t.PrintTrace lvl) = nodeCount t := by
  exact ⟨rfl, countLines_PrintTrace t lvl h⟩

/-- Witness for the amended C8 on a two-node debug trace. -/
theorem printTrace_renders_every_node_witness :
    noNewlines (newDebugTrace "combiner status" [newDebugTrace "nested detail" []]) = true
    ∧ countLines ((newDebugTrace "combiner status"
          [newDebugTrace "nested detail" []]).PrintTrace 0)
        = nodeCount (newDebugTrace "combiner status" [newDebugTrace "nested detail" []]) := by
  exact ⟨rfl,
    (printTrace_renders_every_node c8exExpecter true
      (newDebugTrace "combiner status" [newDebugTrace "nested detail" []]) 0 rfl).2⟩

/-! C10: Begin makes the timeout check safe, and the consumer always
calls Begin first. -/

/-- Once Begin has run, tryMatch can no longer hit the nil startTime
dereference, whatever the layer state was before. -/
theorem begin_tryMatch_isSome {T : Type} (l : layer T) (now now2 : Nat) (m : T) :
    ((l.Begin now).tryMatch now2 m).isSome = true := by
  have hsafe : ∃ b, (l.Begin now).timeoutElapsed now2 = some b := by
    unfold layer.Begin layer.timeoutElapsed
    cases ht : l.timeout with
    | none =>
        rw [if_pos (Or.inl rfl)]
        rw [ht]
        exact ⟨false, rfl⟩
    | some d =>
        cases hs : l.startTime with
        | some s =>
            rw [if_pos (Or.inr (fun hc => Option.noConfusion hc))]
            rw [ht, hs]
            exact ⟨_, rfl⟩
        | none =>
            rw [if_neg (by
              rintro (hc | hc)
              · exact Option.noConfusion hc
              · exact hc rfl)]
            dsimp only
            exact ⟨_, rfl⟩
  obtain ⟨b, hb⟩ := hsafe
  unfold layer.tryMatch
  rw [hb]
  cases b <;> rfl

/-- One consumer iteration on an in-range layer index never crashes. -/
theorem listenStep_isSome {T : Type} (exp : expecter T) (now : Nat) (m : T)
    (hidx : exp.currentLayerIndex < exp.expectLayers.length) :
    (listenStep exp now m).isSome = true := by
  unfold listenStep
  cases hg : exp.expectLayers.get? exp.currentLayerIndex with
  | none => rw [List.get?_eq_none] at hg; omega
  | some l0 =>
      dsimp only
      by_cases hig : (expecter.shouldIgnoreMessage
          { exp with expectLayers :=
              exp.expectLayers.set exp.currentLayerIndex (l0.Begin now) } m).1 = true
      · rw [if_pos hig]
        rfl
      · rw [if_neg hig]
        have hsome := begin_tryMatch_isSome l0 now now m
        cases htm : (l0.Begin now).tryMatch now m with
        | none => rw [htm] at hsome; cases hsome
        | some pr =>
            obtain ⟨ok, l1⟩ := pr
            rfl

/-- The consumer loop never crashes, from any state and over any message
sequence: the layer selected for a message is always Begun first. -/
theorem listen_isSome {T : Type} :
    ∀ (msgs : List (Nat × T)) (exp : expecter T), (Listen exp msgs).isSome = true := by
  intro msgs
  induction msgs with
  | nil => intro exp; rfl
  | cons p rest ih =>
      intro exp
      obtain ⟨now, m⟩ := p
      show (Listen exp ((now, m) :: rest)).isSome = true
      unfold Listen
      by_cases hstop : exp.expectLayers.length ≤ exp.currentLayerIndex
      · rw [if_pos hstop]
        rfl
      · rw [if_neg hstop]
        have hs := listenStep_isSome exp now m (by omega)
        cases hstep : listenStep exp now m with
        | none => rw [hstep] at hs; cases hs
        | some exp1 => exact ih exp1

/-- C10.  A layer with a configured timeout whose start time was never
captured crashes in timeoutElapsed (the Go code dereferences the nil
startTime pointer), so layer.tryMatch is only safe after Begin; the
consumer of the expecter calls Begin on the active layer before every
tryMatch, so its run never reaches the crash, from any starting state. -/
theorem timeout_requires_begin_and_consumer_is_safe {T : Type} (l : layer T)
    (now2 : Nat) (m : T) (h1 : l.timeout.isSome = true) (h2 : l.startTime = none)
    (exp : expecter T) (msgs : List (Nat × T)) :
    l.tryMatch now2 m = none ∧ (Listen exp msgs).isSome = true := by
  constructor
  · obtain ⟨d, hd⟩ := Option.isSome_iff_exists.mp h1
    unfold layer.tryMatch layer.timeoutElapsed
    rw [hd, h2]
  · exact listen_isSome msgs exp

/-- Witness for C10 at a concrete timeout layer and a concrete consumer
run. -/
theorem timeout_requires_begin_and_consumer_is_safe_witness :
    c10exLayer.timeout.isSome = true
    ∧ c10exLayer.startTime = none
    ∧ c10exLayer.tryMatch 9 1 = none
    ∧ (Listen c5exExpecter c5exMessages).isSome = true := by
  refine ⟨rfl, rfl, ?_, ?_⟩
  · exact (timeout_requires_begin_and_consumer_is_safe c10exLayer 9 1 rfl rfl
      c5exExpecter c5exMessages).1
  · exact (timeout_requires_begin_and_consumer_is_safe c10exLayer 9 1 rfl rfl
      c5exExpecter c5exMessages).2

/-! C5: the consumer logs exactly one entry per message read. -/

/-- Full characterization of one consumer iteration on an in-range layer
index: exactly one entry is appended to the log, carrying the message; an
ignored message is logged Ignored with layer index minus one and the only
other state change is Begin on the active layer; any other message is
logged with the current layer index as Accepted or Rejected. -/
theorem listenStep_char {T : Type} (exp : expecter T) (now : Nat) (m : T) (l0 : layer T)
    (hget : exp.expectLayers.get? exp.currentLayerIndex = some l0) :
    ∃ (exp1 : expecter T) (r : MessageResult T),
      listenStep exp now m = some exp1
      ∧ exp1.ignoreMatchers = exp.ignoreMatchers
      ∧ exp1.results = exp.results ++ [r]
      ∧ r.Message = m
      ∧ ((expecter.shouldIgnoreMessage exp m).1 = true →
          r.Status = MessageStatus.Ignored ∧ r.LayerIdx = -1
          ∧ exp1 = { exp with
              expectLayers := exp.expectLayers.set exp.currentLayerIndex (l0.Begin now)
              results := exp.results ++ [r] })
      ∧ ((expecter.shouldIgnoreMessage exp m).1 = false →
          r.LayerIdx = (exp.currentLayerIndex : Int)
          ∧ (r.Status = MessageStatus.Accepted ∨ r.Status = MessageStatus.Rejected)) := by
  by_cases hig : (expecter.shouldIgnoreMessage exp m).1 = true
  · refine ⟨{ exp with
        expectLayers := exp.expectLayers.set exp.currentLayerIndex (l0.Begin now)
        results := exp.results
          ++ [{ Message := m, LayerIdx := -1, Status := MessageStatus.Ignored
                Trace := (expecter.shouldIgnoreMessage exp m).2 }] },
      { Message := m, LayerIdx := -1, Status := MessageStatus.Ignored
        Trace := (expecter.shouldIgnoreMessage exp m).2 }, ?_, rfl, rfl, rfl, ?_, ?_⟩
    · unfold listenStep
      rw [hget]
      dsimp only
      have hig2 : (expecter.shouldIgnoreMessage
          { exp with expectLayers :=
              exp.expectLayers.set exp.currentLayerIndex (l0.Begin now) } m).1 = true := hig
      rw [if_pos hig2]
      rfl
    · rintro -
      exact ⟨rfl, rfl, rfl⟩
    · intro hc
      rw [hig] at hc
      cases hc
  · have hig' : (expecter.shouldIgnoreMessage exp m).1 = false := by
      revert hig
      cases (expecter.shouldIgnoreMessage exp m).1 <;> simp
    have hsome := begin_tryMatch_isSome l0 now now m
    cases htm : (l0.Begin now).tryMatch now m with
    | none =>
        rw [htm] at hsome
        cases hsome
    | some pr =>
        obtain ⟨ok, l1⟩ := pr
        by_cases hadv : ok = true ∧ l1.IsSatisfied = true
        · refine ⟨{ exp with
              expectLayers :=
                (exp.expectLayers.set exp.currentLayerIndex (l0.Begin now)).set
                  exp.currentLayerIndex l1
              results := exp.results
                ++ [{ Message := m, LayerIdx := (exp.currentLayerIndex : Int)
                      Status := if ok then MessageStatus.Accepted else MessageStatus.Rejected
                      Trace := opaqueTrace }]
              currentLayerIndex := exp.currentLayerIndex + 1 },
            { Message := m, LayerIdx := (exp.currentLayerIndex : Int)
              Status := if ok then MessageStatus.Accepted else MessageStatus.Rejected
              Trace := opaqueTrace }, ?_, rfl, rfl, rfl, ?_, ?_⟩
          · unfold listenStep
            rw [hget]
            dsimp only
            have hig2 : (expecter.shouldIgnoreMessage
                { exp with expectLayers :=
                    exp.expectLayers.set exp.currentLayerIndex (l0.Begin now) } m).1
                  = false := hig'
            rw [if_neg (by simp [hig2]), htm]
            dsimp only
            rw [if_pos hadv]
          · intro hc
            rw [hig'] at hc
            cases hc
          · rintro -
            refine ⟨rfl, ?_⟩
            cases ok
            · right; rfl
            · left; rfl
        · refine ⟨{ exp with
              expectLayers :=
                (exp.expectLayers.set exp.currentLayerIndex (l0.Begin now)).set
                  exp.currentLayerIndex l1
              results := exp.results
                ++ [{ Message := m, LayerIdx := (exp.currentLayerIndex : Int)
                      Status := if ok then MessageStatus.Accepted else MessageStatus.Rejected
                      Trace := opaqueTrace }] },
            { Message := m, LayerIdx := (exp.currentLayerIndex : Int)
              Status := if ok then MessageStatus.Accepted else MessageStatus.Rejected
              Trace := opaqueTrace }, ?_, rfl, rfl, rfl, ?_, ?_⟩
          · unfold listenStep
            rw [hget]
            dsimp only
            have hig2 : (expecter.shouldIgnoreMessage
                { exp with expectLayers :=
                    exp.expectLayers.set exp.currentLayerIndex (l0.Begin now) } m).1
                  = false := hig'
            rw [if_neg (by simp [hig2]), htm]
            dsimp only
            rw [if_neg hadv]
          · intro hc
            rw [hig'] at hc
            cases hc
          · rintro -
            refine ⟨rfl, ?_⟩
            cases ok
            · right; rfl
            · left; rfl

/-- Run invariants of the consumer: the log grows by exactly one entry
per message read, the ignore matchers never change, and entries already
logged are never rewritten. -/
theorem listen_log_facts {T : Type} :
    ∀ (msgs : List (Nat × T)) (exp sf : expecter T) (rest : List (Nat × T)),
      Listen exp msgs = some (sf, rest) →
      sf.results.length + rest.length = exp.results.length + msgs.length
      ∧ sf.ignoreMatchers = exp.ignoreMatchers
      ∧ ∀ i, i < exp.results.length → sf.results.get? i = exp.results.get? i := by
  intro msgs
  induction msgs with
  | nil =>
      intro exp sf rest h
      simp only [Listen, Option.some.injEq, Prod.mk.injEq] at h
      obtain ⟨h1, h2⟩ := h
      subst h1
      subst h2
      exact ⟨rfl, rfl, fun i _ => rfl⟩
  | cons p rest' ih =>
      intro exp sf rest h
      obtain ⟨now, m⟩ := p
      unfold Listen at h
      by_cases hstop : exp.expectLayers.length ≤ exp.currentLayerIndex
      · rw [if_pos hstop] at h
        simp only [Option.some.injEq, Prod.mk.injEq] at h
        obtain ⟨h1, h2⟩ := h
        subst h1
        subst h2
        exact ⟨rfl, rfl, fun i _ => rfl⟩
      · rw [if_neg hstop] at h
        cases hg : exp.expectLayers.get? exp.currentLayerIndex with
        | none =>
            rw [List.get?_eq_none] at hg
            omega
        | some l0 =>
            obtain ⟨exp1, r, hstep, hign1, hres1, -, -, -⟩ :=
              listenStep_char exp now m l0 hg
            rw [hstep] at h
            obtain ⟨ihlen, ihign, ihstab⟩ := ih exp1 sf rest h
            refine ⟨?_, by rw [ihign, hign1], ?_⟩
            · rw [hres1] at ihlen
              simp only [List.length_append, List.length_cons, List.length_nil] at ihlen
              simp only [List.length_cons]
              omega
            · intro i hi
              have hi1 : i < exp1.results.length := by
                rw [hres1]
                simp only [List.length_append, List.length_cons, List.length_nil]
                omega
              rw [ihstab i hi1, hres1, List.get?_append hi]

/-- Consuming a prefix that was fully read, then the remainder, is the
same as consuming the whole sequence. -/
theorem listen_append {T : Type} :
    ∀ (xs ys : List (Nat × T)) (exp s1 : expecter T)
      (res : Option (expecter T × List (Nat × T))),
      Listen exp xs = some (s1, []) → Listen s1 ys = res → Listen exp (xs ++ ys) = res := by
  intro xs
  induction xs with
  | nil =>
      intro ys exp s1 res h hres
      simp only [Listen, Option.some.injEq, Prod.mk.injEq] at h
      obtain ⟨h1, -⟩ := h
      subst h1
      rw [List.nil_append]
      exact hres
  | cons p rest' ih =>
      intro ys exp s1 res h hres
      obtain ⟨now, m⟩ := p
      unfold Listen at h
      show Listen exp (((now, m) :: rest') ++ ys) = res
      rw [show ((now, m) :: rest') ++ ys = (now, m) :: (rest' ++ ys) from rfl]
      unfold Listen
      by_cases hstop : exp.expectLayers.length ≤ exp.currentLayerIndex
      · rw [if_pos hstop] at h
        simp only [Option.some.injEq, Prod.mk.injEq] at h
        exact absurd h.2.symm (by simp)
      · rw [if_neg hstop] at h ⊢
        cases hstep : listenStep exp now m with
        | none =>
            rw [hstep] at h
            cases h
        | some exp1 =>
            rw [hstep] at h
            exact ih ys exp1 s1 res h hres

/-- Any fully-read prefix of a consumer run is itself a consumer run that
ends with nothing unread, and the full run continues from its final
state. -/
theorem listen_take {T : Type} :
    ∀ (i : Nat) (msgs : List (Nat × T)) (exp sf : expecter T) (rest : List (Nat × T)),
      Listen exp msgs = some (sf, rest) → i + rest.length ≤ msgs.length →
      ∃ si : expecter T, Listen exp (msgs.take i) = some (si, [])
        ∧ Listen si (msgs.drop i) = some (sf, rest) := by
  intro i
  induction i with
  | zero =>
      intro msgs exp sf rest h hle
      exact ⟨exp, rfl, h⟩
  | succ k ihk =>
      intro msgs exp sf rest h hle
      cases msgs with
      | nil =>
          simp only [Listen, Option.some.injEq, Prod.mk.injEq] at h
          obtain ⟨-, h2⟩ := h
          subst h2
          simp at hle
      | cons p rest' =>
          obtain ⟨now, m⟩ := p
          unfold Listen at h
          by_cases hstop : exp.expectLayers.length ≤ exp.currentLayerIndex
          · rw [if_pos hstop] at h
            simp only [Option.some.injEq, Prod.mk.injEq] at h
            obtain ⟨-, h2⟩ := h
            subst h2
            simp only [List.length_cons] at hle
            omega
          · rw [if_neg hstop] at h
            cases hstep : listenStep exp now m with
            | none =>
                rw [hstep] at h
                cases h
            | some exp1 =>
                rw [hstep] at h
                have hle' : k + rest.length ≤ rest'.length := by
                  simp only [List.length_cons] at hle
                  omega
                obtain ⟨si, h1, h2⟩ := ihk rest' exp1 sf rest h hle'
                refine ⟨si, ?_, h2⟩
                show Listen exp ((now, m) :: rest'.take k) = some (si, [])
                unfold Listen
                rw [if_neg hstop, hstep]
                exact h1

/-- C5.  Over any finite run of the consumer: the result log gains exactly
one entry per message read from the source (messages left unread once all
layers are satisfied appear in the returned remainder), earlier entries are
never rewritten, the ignore matchers never change, and the entry for the
i-th read message carries precisely that message, in order; a message an
ignore matcher accepts is logged Ignored with layer index minus one and is
never presented to the active layer (the only state change beside the log
entry is Begin on the active layer), while every other message is logged
with the then-current layer index and status Accepted or Rejected. -/
theorem listen_one_entry_per_message {T : Type} (exp : expecter T)
    (msgs : List (Nat × T)) (sf : expecter T) (rest : List (Nat × T))
    (h : Listen exp msgs = some (sf, rest)) :
    sf.results.length + rest.length = exp.results.length + msgs.length
    ∧ sf.ignoreMatchers = exp.ignoreMatchers
    ∧ (∀ i, i < exp.results.length → sf.results.get? i = exp.results.get? i)
    ∧ ∀ i, exp.results.length + i < sf.results.length →
        ∃ (si : expecter T) (r : MessageResult T) (now : Nat),
          Listen exp (msgs.take i) = some (si, [])
          ∧ msgs.get? i = some (now, r.Message)
          ∧ sf.results.get? (exp.results.length + i) = some r
          ∧ ((expecter.shouldIgnoreMessage si r.Message).1 = true →
              r.Status = MessageStatus.Ignored ∧ r.LayerIdx = -1
              ∧ ∃ l0, si.expectLayers.get? si.currentLayerIndex = some l0
                  ∧ Listen exp (msgs.take (i + 1))
                      = some ({ si with
                          expectLayers :=
                            si.expectLayers.set si.currentLayerIndex (l0.Begin now)
                          results := si.results ++ [r] }, []))
          ∧ ((expecter.shouldIgnoreMessage si r.Message).1 = false →
              r.LayerIdx = (si.currentLayerIndex : Int)
              ∧ (r.Status = MessageStatus.Accepted ∨ r.Status = MessageStatus.Rejected)) := by
  obtain ⟨hlen, hign, hstab⟩ := listen_log_facts msgs exp sf rest h
  refine ⟨hlen, hign, hstab, ?_⟩
  intro i hi
  have hread : i + 1 + rest.length ≤ msgs.length := by omega
  obtain ⟨si, htake, hdrop⟩ := listen_take i msgs exp sf rest h (by omega)
  obtain ⟨hlenp, hignp, -⟩ := listen_log_facts (msgs.take i) exp si [] htake
  have hitake : (msgs.take i).length = i := by
    rw [List.length_take]
    omega
  have hsirl : si.results.length = exp.results.length + i := by
    rw [hitake] at hlenp
    simp only [List.length_nil] at hlenp
    omega
  have hilt : i < msgs.length := by omega
  rcases hpm : msgs.get ⟨i, hilt⟩ with ⟨now, m⟩
  have hdropcons : msgs.drop i = (now, m) :: msgs.drop (i + 1) := by
    rw [List.drop_eq_get_cons hilt, hpm]
  rw [hdropcons] at hdrop
  by_cases hstop : si.expectLayers.length ≤ si.currentLayerIndex
  · exfalso
    unfold Listen at hdrop
    rw [if_pos hstop] at hdrop
    simp only [Option.some.injEq, Prod.mk.injEq] at hdrop
    obtain ⟨-, h2⟩ := hdrop
    have hrlen : rest.length = ((now, m) :: msgs.drop (i + 1)).length := by rw [h2]
    simp only [List.length_cons, List.length_drop] at hrlen
    omega
  · obtain ⟨l0, hg⟩ : ∃ l0, si.expectLayers.get? si.currentLayerIndex = some l0 := by
      cases hgg : si.expectLayers.get? si.currentLayerIndex with
      | none => rw [List.get?_eq_none] at hgg; omega
      | some l0 => exact ⟨l0, rfl⟩
    obtain ⟨exp1, r, hstep, hign1, hres1, hmsg, higcase, hnig⟩ := listenStep_char si now m l0 hg
    have hdrop1 : Listen exp1 (msgs.drop (i + 1)) = some (sf, rest) := by
      unfold Listen at hdrop
      rw [if_neg hstop, hstep] at hdrop
      exact hdrop
    obtain ⟨hlen1, -, hstab1⟩ := listen_log_facts (msgs.drop (i + 1)) exp1 sf rest hdrop1
    have hexp1rl : exp1.results.length = exp.results.length + i + 1 := by
      rw [hres1]
      simp only [List.length_append, List.length_cons, List.length_nil]
      omega
    have hentry : sf.results.get? (exp.results.length + i) = some r := by
      have hpos : exp.results.length + i < exp1.results.length := by omega
      rw [hstab1 _ hpos, hres1, ← hsirl]
      exact List.get?_concat_length si.results r
    refine ⟨si, r, now, htake, ?_, hentry, ?_, ?_⟩
    · rw [List.get?_eq_get hilt, hpm, hmsg]
    · intro hig
      rw [hmsg] at hig
      obtain ⟨hst, hli, hstate⟩ := higcase hig
      refine ⟨hst, hli, l0, hg, ?_⟩
      have htakesucc : msgs.take (i + 1) = msgs.take i ++ [(now, m)] := by
        have hpm2 : msgs[i] = (now, m) := by
          exact (List.get_eq_getElem msgs ⟨i, hilt⟩).symm.trans hpm
        rw [List.take_succ, List.getElem?_eq_getElem hilt, hpm2]
        rfl
      have hone : Listen si [(now, m)] = some (exp1, []) := by
        unfold Listen
        rw [if_neg hstop, hstep]
        rfl
      rw [htakesucc]
      rw [listen_append (msgs.take i) [(now, m)] exp si (some (exp1, [])) htake hone, hstate]
    · intro hnigc
      rw [hmsg] at hnigc
      obtain ⟨hli, hst⟩ := hnig hnigc
      exact ⟨hli, hst⟩

/-- Witness for C5: the concrete four-message run, of which three are read
(one ignored, one rejected, one accepted) and one left unread. -/
theorem listen_one_entry_per_message_witness :
    Listen c5exExpecter c5exMessages = some (c5exOut.1, c5exOut.2)
    ∧ c5exOut.1.results.length + c5exOut.2.length
        = c5exExpecter.results.length + c5exMessages.length := by
  exact ⟨rfl,
    (listen_one_entry_per_message c5exExpecter c5exMessages c5exOut.1 c5exOut.2 rfl).1⟩

end Chanassert
